import Mathlib

/-
Verification of the mkb-scrape extraction pipeline (mkb_scrape/scraper.py).

Strings are modelled as lists of characters (List Char); Python string
operations become explicit recursive functions on character lists.  The
DOM tree supplied by the external parse capability is modelled by a small
inductive of sibling nodes carrying their visible text, and the URL
resolution capability (urljoin/urlparse from the standard library) is
taken as a function parameter, since the repository treats both as
external collaborators.
-/

namespace MkbScrape

/-- Whitespace class: models the characters matched by the regex class
backslash-s (and stripped by str.strip) on the inputs the scraper sees. -/
def isWsChar (c : Char) : Bool :=
  c == ' ' || c == '\t' || c == '\n' || c == '\r' || c == '\x0b' ||
  c == '\x0c' || c == '\u0085' || c == '\u00A0' || c == '\u2028' || c == '\u2029'

/-- Uppercase ASCII letter A-Z. -/
def isUpperAZ (c : Char) : Bool :=
  'A' ≤ c && c ≤ 'Z'

/-- ASCII digit 0-9. -/
def isDigitChar (c : Char) : Bool :=
  '0' ≤ c && c ≤ '9'

/-- Character allowed in a code suffix: the regex class [0-9A-Z]. -/
def isCodeSufChar (c : Char) : Bool :=
  isDigitChar c || isUpperAZ c

/-- Models html.unescape on semicolon-terminated character references for a
representative set of named entities (amp, lt, gt, quot, nbsp).  As in the
Python function, replacement text is emitted and never rescanned: scanning
continues right after the consumed reference. -/
def unescapeList : List Char → List Char
  | '&' :: 'a' :: 'm' :: 'p' :: ';' :: rest => '&' :: unescapeList rest
  | '&' :: 'l' :: 't' :: ';' :: rest => '<' :: unescapeList rest
  | '&' :: 'g' :: 't' :: ';' :: rest => '>' :: unescapeList rest
  | '&' :: 'q' :: 'u' :: 'o' :: 't' :: ';' :: rest => '"' :: unescapeList rest
  | '&' :: 'n' :: 'b' :: 's' :: 'p' :: ';' :: rest => '\u00A0' :: unescapeList rest
  | c :: rest => c :: unescapeList rest
  | [] => []

/-- Models re.sub of one-or-more whitespace by a single space: every maximal
run of whitespace characters is replaced by one space character. -/
def collapseWs : List Char → List Char
  | [] => []
  | [c] => if isWsChar c then [' '] else [c]
  | c :: d :: rest =>
      if isWsChar c && isWsChar d then collapseWs (d :: rest)
      else (if isWsChar c then ' ' else c) :: collapseWs (d :: rest)

/-- Drops characters satisfying p from both ends of the list (Python strip
with a character class). -/
def trimBoth (p : Char → Bool) (l : List Char) : List Char :=
  ((l.dropWhile p).reverse.dropWhile p).reverse

/-- Python str.strip with no arguments: trims whitespace from both ends. -/
def trimWs (l : List Char) : List Char :=
  trimBoth isWsChar l

/-- Embedding of scraper._normalize_text: unescape HTML entities, collapse
whitespace runs to single spaces, then strip both ends. -/
def normalizeText (value : List Char) : List Char :=
  trimWs (collapseWs (unescapeList value))

/-- Converts a list of decimal digits into the natural number they denote
(Python int on a digit string). -/
def natDigits (l : List Char) : Nat :=
  l.foldl (fun n c => 10 * n + (c.toNat - 48)) 0

/-- Splits a string into its maximal leading run of uppercase letters, the
following maximal run of digits, and the remainder.  Because the letter,
digit and remaining positions cannot be confused by the regexes of the
scraper, this decomposition underlies both isCode and codeSortKey. -/
def splitCode (s : List Char) : List Char × List Char × List Char :=
  let letters := s.takeWhile isUpperAZ
  let r1 := s.dropWhile isUpperAZ
  let digits := r1.takeWhile isDigitChar
  let r2 := r1.dropWhile isDigitChar
  (letters, digits, r2)

/-- Valid dot-suffix for scraper._is_code: a dot followed by one to four
characters from [0-9A-Z] and nothing else. -/
def sufOk : List Char → Bool
  | c :: suf => c == '.' && !suf.isEmpty && decide (suf.length ≤ 4) && suf.all isCodeSufChar
  | [] => false

/-- Embedding of scraper._is_code: full match of one or two uppercase
letters, exactly two digits, and optionally a dot followed by one to four
characters from [0-9A-Z]. -/
def isCode (s : List Char) : Bool :=
  let p := splitCode s
  (p.1.length == 1 || p.1.length == 2) && p.2.1.length == 2 &&
    (p.2.2.isEmpty || sufOk p.2.2)

/-- A code sort key as produced by scraper._code_sort_key: a Python tuple
of a string, an integer and a string. -/
abbrev SortKey := List Char × Nat × List Char

/-- Embedding of scraper._code_sort_key: if the string fully matches
letters-then-digits with an optional dot suffix, the key is the triple
(letter block, numeric value of the digit block, suffix); otherwise the
key is the raw text together with 0 and the empty suffix. -/
def codeSortKey (s : List Char) : SortKey :=
  let p := splitCode s
  if p.1.isEmpty || p.2.1.isEmpty then (s, 0, [])
  else
    match p.2.2 with
    | [] => (p.1, natDigits p.2.1, [])
    | c :: suf =>
        if c == '.' && !suf.isEmpty && suf.all isCodeSufChar then
          (p.1, natDigits p.2.1, suf)
        else (s, 0, [])

/-- Lexicographic strict comparison of character lists by code point,
matching Python string comparison. -/
def charListLt : List Char → List Char → Bool
  | [], [] => false
  | [], _ :: _ => true
  | _ :: _, [] => false
  | a :: as, b :: bs => decide (a < b) || (a == b && charListLt as bs)

/-- Strict comparison of sort keys, matching Python tuple comparison on
(str, int, str). -/
def keyLt (a b : SortKey) : Bool :=
  charListLt a.1 b.1 ||
    (a.1 == b.1 && (decide (a.2.1 < b.2.1) ||
      (a.2.1 == b.2.1 && charListLt a.2.2 b.2.2)))

/-- Non-strict comparison of sort keys (Python tuple less-or-equal). -/
def keyLe (a b : SortKey) : Bool :=
  keyLt a b || a == b

/-- A single MKB record, embedding the frozen dataclass MKBEntry of the
scraper (fields code, serbian, latin). -/
structure MKBEntry where
  code : List Char
  serbian : List Char
  latin : List Char
deriving DecidableEq, Repr

/-- Merge of a duplicate occurrence into the kept entry, embedding the
merge expression of scraper._deduplicate: each field takes the new
occurrence's value when that value is non-blank (Python or on strings),
falling back to the kept entry's value otherwise. -/
def mergeEntry (existing entry : MKBEntry) : MKBEntry :=
  { code := entry.code
    serbian := if entry.serbian.isEmpty then existing.serbian else entry.serbian
    latin := if entry.latin.isEmpty then existing.latin else entry.latin }

/-- One step of scraper._deduplicate: the insertion-ordered dict keyed by
code is modelled as an association list of entries; an unseen code is
appended, a seen code has its entry replaced by the merge. -/
def updateSeen (seen : List MKBEntry) (entry : MKBEntry) : List MKBEntry :=
  if seen.any (fun x => x.code == entry.code) then
    seen.map (fun x => if x.code == entry.code then mergeEntry x entry else x)
  else seen ++ [entry]

/-- Embedding of scraper._deduplicate: fold the input entries through the
seen map and return its values in first-insertion order. -/
def deduplicate (entries : List MKBEntry) : List MKBEntry :=
  entries.foldl updateSeen []

/-- Lower-cases the characters the label vocabulary needs: ASCII letters
and the Latin letter S with caron used by the localized label. -/
def lowerChar (c : Char) : Char :=
  if 'A' ≤ c && c ≤ 'Z' then Char.ofNat (c.toNat + 32)
  else if c == 'Š' then 'š' else c

/-- The fixed label vocabulary of scraper._LABEL_PATTERN in the regex's
alternation order; the optional group of the latin alternative is expanded
into the two alternatives latin-space-name and latin, longer first, as the
greedy optional group behaves. -/
def labelVocab : List (List Char) :=
  [['s', 'r', 'p', 's', 'k', 'i'],
   ['s', 'e', 'r', 'b', 'i', 'a', 'n'],
   ['n', 'a', 'z', 'i', 'v'],
   ['o', 'p', 'i', 's'],
   ['l', 'a', 't', 'i', 'n', 's', 'k', 'i'],
   ['l', 'a', 't', 'i', 'n', ' ', 'n', 'a', 'm', 'e'],
   ['l', 'a', 't', 'i', 'n'],
   ['š', 'i', 'f', 'r', 'a'],
   ['s', 'i', 'f', 'r', 'a'],
   ['o', 'z', 'n', 'a', 'k', 'a'],
   ['c', 'o', 'd', 'e']]

/-- Case-insensitive test whether the string starts with the given label
token, returning the remainder after the token. -/
def matchLabelAt (lab l : List Char) : Option (List Char) :=
  if (l.take lab.length).map lowerChar == lab && decide (lab.length ≤ l.length) then
    some (l.drop lab.length)
  else none

/-- After the label token the pattern consumes optional whitespace, at most
one separator character (colon, hyphen or en-dash) and optional whitespace
again, all greedily. -/
def sepTail (l : List Char) : List Char :=
  match l.dropWhile isWsChar with
  | c :: rest =>
      if c == ':' || c == '-' || c == '–' then rest.dropWhile isWsChar
      else (l.dropWhile isWsChar)
  | [] => []

/-- Tries each label of the vocabulary in alternation order at the start of
the string. -/
def labelMatchGo : List (List Char) → List Char → Option (List Char)
  | [], _ => none
  | lab :: labs, l =>
      match matchLabelAt lab l with
      | some rest => some rest
      | none => labelMatchGo labs l

/-- Anchored match of scraper._LABEL_PATTERN: a recognized label token at
the start of the string followed by the separator tail; returns the
remainder of the string after the whole match, or none. -/
def labelMatch (l : List Char) : Option (List Char) :=
  (labelMatchGo labelVocab l).map sepTail

/-- Characters stripped from both ends by scraper._strip_labels after the
label substitution: space, hyphen, colon and en-dash. -/
def isStripSep (c : Char) : Bool :=
  c == ' ' || c == '-' || c == ':' || c == '–'

/-- Embedding of scraper._strip_labels: the empty string maps to itself;
otherwise one anchored label match is removed (if present) and the result
is stripped of separator characters at both ends. -/
def stripLabels (value : List Char) : List Char :=
  if value.isEmpty then []
  else
    trimBoth isStripSep
      (match labelMatch value with
       | some rest => rest
       | none => value)

/-- Detects a spaced hyphen or en-dash separator starting at the character
c (with rest following it): one or more whitespace characters, the dash,
then one or more whitespace characters; returns the remainder after the
separator when it matches. -/
def sepAt (c : Char) (rest : List Char) : Option (List Char) :=
  if isWsChar c then
    match rest.dropWhile isWsChar with
    | d :: r2 =>
        if (d == '-' || d == '–') &&
            (match r2 with
             | e :: _ => isWsChar e
             | [] => false) then
          some (r2.dropWhile isWsChar)
        else none
    | [] => none
  else none

/-- Finds the leftmost spaced-dash separator in the string, returning the
text before it and the remainder after it. -/
def findSep : List Char → Option (List Char × List Char)
  | [] => none
  | c :: rest =>
      match sepAt c rest with
      | some after => some ([], after)
      | none =>
          match findSep rest with
          | some (before, after) => some (c :: before, after)
          | none => none

/-- Fuel-driven worker for the spaced-dash split: repeatedly cut the
string at the leftmost separator.  Since every separator consumes at least
three characters, fuel equal to the string length never runs out before
the separators are exhausted. -/
def reSplitDashGo : Nat → List Char → List (List Char)
  | 0, l => [l]
  | fuel + 1, l =>
      match findSep l with
      | none => [l]
      | some (before, after) => before :: reSplitDashGo fuel after

/-- Embedding of the re.split on spaced hyphen/en-dash used during entry
repair. -/
def reSplitDash (l : List Char) : List (List Char) :=
  reSplitDashGo l.length l

/-- Field repair steps of scraper._normalise_entry: label-strip and
normalize both text fields, blank a field whose value is itself a valid
code, and when the primary is blank but the alternate is not, split the
alternate on spaced dashes and promote the first segment to primary and
the last to alternate when at least two segments remain. -/
def repairFields (e : MKBEntry) : List Char × List Char :=
  let serbian0 := stripLabels (normalizeText e.serbian)
  let latin0 := stripLabels (normalizeText e.latin)
  let serbian1 := if !serbian0.isEmpty && isCode serbian0 then [] else serbian0
  let latin1 := if !latin0.isEmpty && isCode latin0 then [] else latin0
  if serbian1.isEmpty && !latin1.isEmpty then
    let segments := ((reSplitDash latin1).map trimWs).filter (fun s => !s.isEmpty)
    if decide (1 < segments.length) then (segments.headD [], segments.getLastD [])
    else (serbian1, latin1)
  else (serbian1, latin1)

/-- Embedding of scraper._normalise_entry: runs the field repair and drops
the entry when the primary text is still blank afterwards. -/
def normaliseEntry (e : MKBEntry) : Option MKBEntry :=
  let p := repairFields e
  if p.1.isEmpty then none
  else some { code := e.code, serbian := p.1, latin := p.2 }

/-- Matches exactly two digits at the head of the list. -/
def matchDigits2 : List Char → Option (List Char × List Char)
  | a :: b :: rest =>
      if isDigitChar a && isDigitChar b then some ([a, b], rest) else none
  | _ => none

/-- Greedy match of the optional dot suffix of the in-path code pattern:
a dot followed by up to four characters from [0-9A-Z]; returns the matched
text (possibly empty) and the remainder. -/
def matchSuffixOpt : List Char → List Char × List Char
  | '.' :: rest =>
      let suf := (rest.takeWhile isCodeSufChar).take 4
      if suf.isEmpty then ([], '.' :: rest)
      else ('.' :: suf, rest.drop suf.length)
  | l => ([], l)

/-- Tries to match the in-path code pattern at the head of the list using
exactly n leading uppercase letters. -/
def matchLettersCode (n : Nat) (l : List Char) : Option (List Char × List Char) :=
  let letters := l.take n
  if letters.length == n && letters.all isUpperAZ then
    match matchDigits2 (l.drop n) with
    | some (ds, rest) =>
        let p := matchSuffixOpt rest
        some (letters ++ ds ++ p.1, p.2)
    | none => none
  else none

/-- Unanchored match of the code pattern at the head of the list; like the
regex engine, two leading letters are preferred over one. -/
def matchCodeAt (l : List Char) : Option (List Char × List Char) :=
  match matchLettersCode 2 l with
  | some r => some r
  | none => matchLettersCode 1 l

/-- Fuel-driven worker of re.findall for the in-path code pattern: scan
left to right, recording each leftmost non-overlapping match.  A match
consumes at least three characters, so fuel equal to the list length never
runs out before the scan finishes. -/
def findAllCodesGo : Nat → List Char → List (List Char)
  | 0, _ => []
  | _ + 1, [] => []
  | fuel + 1, c :: rest =>
      match matchCodeAt (c :: rest) with
      | some (m, rest2) => m :: findAllCodesGo fuel rest2
      | none => findAllCodesGo fuel rest

/-- Embedding of re.findall of the code pattern over a string. -/
def findAllCodes (l : List Char) : List (List Char) :=
  findAllCodesGo l.length l

/-- Strips slash characters from both ends (Python strip with slash). -/
def trimSlash (l : List Char) : List Char :=
  trimBoth (fun c => c == '/') l

/-- Embedding of scraper._extract_code_range: paths not starting with the
catalogue prefix carry no range; otherwise the prefix is removed, slashes
are stripped, and all code-shaped substrings are collected, the range
being the first and last of them (twice the same code if only one). -/
def extractCodeRange (pfx path : List Char) : Option (List Char × List Char) :=
  if pfx.isPrefixOf path then
    let remainder := trimSlash (path.drop pfx.length)
    if remainder.isEmpty then none
    else
      match findAllCodes remainder with
      | [] => none
      | c :: cs => some (c, (c :: cs).getLastD [])
  else none

/-- Orients a key range so that its start does not exceed its end,
embedding the swap performed by scraper._filter_catalog_urls. -/
def orientRange (r : SortKey × SortKey) : SortKey × SortKey :=
  if keyLt r.2 r.1 then (r.2, r.1) else r

/-- Containment test between an oriented candidate range and an oriented
accepted range, as in the covering check of the URL filter. -/
def coveredBy (cand acc : SortKey × SortKey) : Bool :=
  keyLe acc.1 cand.1 && keyLe cand.2 acc.2

/-- Worker of scraper._filter_catalog_urls: walks the candidate (url,
path) pairs keeping the list of oriented key ranges accepted so far; a
candidate whose range is covered by an accepted range is dropped, any
other candidate is kept, and only candidates carrying a range extend the
accepted list. -/
def filterGo (pfx : List Char) :
    List (List Char × List Char) → List (SortKey × SortKey) → List (List Char)
  | [], _ => []
  | (url, path) :: rest, covered =>
      match extractCodeRange pfx path with
      | none => url :: filterGo pfx rest covered
      | some (s, e) =>
          let r := orientRange (codeSortKey s, codeSortKey e)
          if covered.any (fun acc => coveredBy r acc) then filterGo pfx rest covered
          else url :: filterGo pfx rest (covered ++ [r])

/-- Embedding of scraper._filter_catalog_urls. -/
def filterCatalogUrls (pfx : List Char) (cands : List (List Char × List Char)) :
    List (List Char) :=
  filterGo pfx cands []

/-- Worker for the range-covering filter written from the specification's
words: previously accepted ranges are stored raw and both ranges are
oriented at comparison time. -/
def filterSpecGo (pfx : List Char) :
    List (List Char × List Char) → List (SortKey × SortKey) → List (List Char)
  | [], _ => []
  | (url, path) :: rest, accepted =>
      match extractCodeRange pfx path with
      | none => url :: filterSpecGo pfx rest accepted
      | some (s, e) =>
          let c := orientRange (codeSortKey s, codeSortKey e)
          if accepted.any (fun a => coveredBy c (orientRange a)) then
            filterSpecGo pfx rest accepted
          else url :: filterSpecGo pfx rest (accepted ++ [(codeSortKey s, codeSortKey e)])

/-- Range-covering filter as described by the specification: a candidate
is dropped exactly when some previously accepted range, after orienting
both ranges, contains it; rangeless candidates are kept and never join
the accepted list. -/
def filterCoveredSpec (pfx : List Char) (cands : List (List Char × List Char)) :
    List (List Char) :=
  filterSpecGo pfx cands []

/-- A parsed URL as returned by the external urlparse capability. -/
structure ParsedUrl where
  scheme : List Char
  netloc : List Char
  path : List Char
  query : List Char
deriving DecidableEq, Repr

/-- Strips trailing slashes (Python rstrip with slash). -/
def rstripSlash (l : List Char) : List Char :=
  (l.reverse.dropWhile (fun c => c == '/')).reverse

/-- Rebuilds the normalized URL string from the parsed pieces and the
slash-stripped path, keeping the query string when present. -/
def normalizedUrl (p : ParsedUrl) (path : List Char) : List Char :=
  p.scheme ++ [':', '/', '/'] ++ p.netloc ++ path ++
    (if p.query.isEmpty then [] else '?' :: p.query)

/-- The accepted URL schemes of the link collector. -/
def httpScheme (s : List Char) : Bool :=
  s == ['h', 't', 't', 'p'] || s == ['h', 't', 't', 'p', 's']

/-- Worker of scraper._collect_catalog_urls over the anchors' href values.
The external urljoin and urlparse capabilities are passed as functions.
An href is stripped, discarded when empty or a fragment, resolved against
the base URL, and kept only when its scheme is http or https, its host
equals the base host, and its slash-stripped path is non-empty and starts
with the catalogue path prefix; surviving URLs are normalized and
deduplicated in first-seen order. -/
def collectGo (parse : List Char → ParsedUrl) (join : List Char → List Char → List Char)
    (baseUrl pfx : List Char) :
    List (List Char) → List (List Char) → List (List Char × List Char)
  | [], _ => []
  | href :: hrefs, seen =>
      let h := trimWs href
      if h.isEmpty || h.headD ' ' == '#' then collectGo parse join baseUrl pfx hrefs seen
      else
        let p := parse (join (baseUrl ++ ['/']) h)
        if !httpScheme p.scheme then collectGo parse join baseUrl pfx hrefs seen
        else if p.netloc != (parse baseUrl).netloc then
          collectGo parse join baseUrl pfx hrefs seen
        else
          let path := rstripSlash p.path
          if path.isEmpty || !pfx.isPrefixOf path then
            collectGo parse join baseUrl pfx hrefs seen
          else
            let normalized := normalizedUrl p path
            if seen.contains normalized then collectGo parse join baseUrl pfx hrefs seen
            else (normalized, path) :: collectGo parse join baseUrl pfx hrefs (normalized :: seen)

/-- Embedding of scraper._collect_catalog_urls: candidate discovery
followed by the range-covering filter. -/
def collectCatalogUrls (parse : List Char → ParsedUrl)
    (join : List Char → List Char → List Char)
    (baseUrl pfx : List Char) (hrefs : List (List Char)) : List (List Char) :=
  filterCatalogUrls pfx (collectGo parse join baseUrl pfx hrefs [])

/-- The catalogue-page loop of scraper.scrape: each retained page's parsed
entries are appended in order, and a page with no entries aborts the whole
crawl with an error naming the page. -/
def crawlPages : List (List Char × List MKBEntry) → Except (List Char) (List MKBEntry)
  | [] => .ok []
  | (url, es) :: rest =>
      if es.isEmpty then .error url
      else
        match crawlPages rest with
        | .error e => .error e
        | .ok more => .ok (es ++ more)

/-- Stable insertion of an entry into a list sorted by code sort key. -/
def insertByKey (e : MKBEntry) : List MKBEntry → List MKBEntry
  | [] => [e]
  | x :: xs =>
      if keyLt (codeSortKey x.code) (codeSortKey e.code) then x :: insertByKey e xs
      else e :: x :: xs

/-- Stable sort of the deduplicated entries by code sort key, modelling
Python sorted with key code_sort_key. -/
def sortEntries : List MKBEntry → List MKBEntry
  | [] => []
  | e :: rest => insertByKey e (sortEntries rest)

/-- Embedding of scraper.scrape given the parsed index entries and the
parsed entries of each retained catalogue page: index entries are taken
even when there are none, every catalogue page must be non-empty, and the
accumulated entries are deduplicated and sorted. -/
def scrapeModel (indexEntries : List MKBEntry)
    (pages : List (List Char × List MKBEntry)) : Except (List Char) (List MKBEntry) :=
  match crawlPages pages with
  | .error u => .error u
  | .ok rest => .ok (sortEntries (deduplicate (indexEntries ++ rest)))

/-- A following sibling in the DOM, as seen by the sibling scans: either a
bare text node or an element with its tag name, class list and visible
text. -/
inductive DomNode where
  | text (s : List Char)
  | elem (name : List Char) (classes : List (List Char)) (innerText : List Char)
deriving DecidableEq, Repr

/-- Contiguous substring test, modelling the Python in operator on
strings. -/
def containsSub (needle : List Char) : List Char → Bool
  | [] => needle.isEmpty
  | c :: rest => needle.isPrefixOf (c :: rest) || containsSub needle rest

/-- Embedding of scraper._contains_latin_label: the lowercased text
contains the token latinski or the token latin. -/
def containsLatinLabel (value : List Char) : Bool :=
  let lower := value.map lowerChar
  containsSub ['l', 'a', 't', 'i', 'n', 's', 'k', 'i'] lower ||
    containsSub ['l', 'a', 't', 'i', 'n'] lower

/-- The class attribute joined by spaces and lowercased, as the sibling
scan builds it. -/
def classStr (classes : List (List Char)) : List Char :=
  (List.intercalate [' '] classes).map lowerChar

/-- Whether the joined lowercased class string contains the token latin. -/
def hasLatinClass (classes : List (List Char)) : Bool :=
  containsSub ['l', 'a', 't', 'i', 'n'] (classStr classes)

/-- Worker of scraper._extract_following_latin, indexed by the enumerate
counter: the loop breaks once the counter exceeds ten, so the nodes at
indices zero through ten are examined. -/
def eflGo : Nat → List DomNode → List Char
  | _, [] => []
  | idx, sib :: rest =>
      if decide (10 < idx) then []
      else
        match sib with
        | .text s =>
            let candidate := normalizeText s
            if containsLatinLabel candidate then stripLabels candidate
            else eflGo (idx + 1) rest
        | .elem name classes inner =>
            if name == ['b', 'r'] then eflGo (idx + 1) rest
            else
              let text := normalizeText inner
              if text.isEmpty then eflGo (idx + 1) rest
              else if name == ['e', 'm'] || name == ['i'] || hasLatinClass classes ||
                  containsLatinLabel text then stripLabels text
              else if name.headD ' ' == 'h' then []
              else eflGo (idx + 1) rest

/-- Embedding of scraper._extract_following_latin over the list of
following siblings of the heading. -/
def extractFollowingLatin (sibs : List DomNode) : List Char :=
  eflGo 0 sibs

/-- Decision a single sibling induces on the scan: be skipped, supply the
alternate text, or halt the scan. -/
inductive SibStep where
  | skip
  | grab (t : List Char)
  | halt
deriving DecidableEq, Repr

/-- Classification of one sibling node: text nodes supply alternate text
when they contain the latin label and are skipped otherwise; br and
empty-text elements are skipped; an element that is emphasized, carries a
latin class or contains the latin label supplies its stripped text; a
remaining element whose name starts with h halts the scan. -/
def classifySib : DomNode → SibStep
  | .text s =>
      let candidate := normalizeText s
      if containsLatinLabel candidate then .grab (stripLabels candidate) else .skip
  | .elem name classes inner =>
      if name == ['b', 'r'] then .skip
      else
        let text := normalizeText inner
        if text.isEmpty then .skip
        else if name == ['e', 'm'] || name == ['i'] || hasLatinClass classes ||
            containsLatinLabel text then .grab (stripLabels text)
        else if name.headD ' ' == 'h' then .halt
        else .skip

/-- Sibling scan as a one-shot description: look at the first eleven
siblings only, find the first one that is not skipped, and return its
grabbed text, or nothing when the first decision is a halt or no decision
exists. -/
def extractFollowingLatinSpec (sibs : List DomNode) : List Char :=
  match ((sibs.take 11).map classifySib).find? (fun a => a != SibStep.skip) with
  | some (SibStep.grab t) => t
  | _ => []

/-- Immutable scraper configuration produced by the constructor; the
inter-fetch delay (a Python float) is modelled as a rational number. -/
structure ScraperConfig where
  baseUrl : List Char
  indexPath : List Char
  indexUrl : List Char
  catalogPathPfx : List Char
  delay : ℚ
deriving DecidableEq, Repr

/-- Ensures a leading slash as the constructor does for both paths. -/
def ensureLeadingSlash (p : List Char) : List Char :=
  if p.headD ' ' == '/' then p else '/' :: p

/-- Embedding of MKBScraper.__init__ on its configuration data: the base
URL loses trailing slashes, both paths gain a leading slash when missing,
the index URL is their concatenation, and the delay is clamped from below
by zero. -/
def mkScraper (baseUrl indexPath catalogPfx : List Char) (delay : ℚ) : ScraperConfig :=
  { baseUrl := rstripSlash baseUrl
    indexPath := ensureLeadingSlash indexPath
    indexUrl := rstripSlash baseUrl ++ ensureLeadingSlash indexPath
    catalogPathPfx := ensureLeadingSlash catalogPfx
    delay := max 0 delay }

/-- Accumulates field values of successive duplicate occurrences the way
the merge of the deduplication does: each non-blank value overwrites the
accumulator, so the result is the latest non-blank value, or the start
value when every occurrence is blank. -/
def mergeField (init : List Char) (l : List (List Char)) : List Char :=
  l.foldl (fun acc s => if s.isEmpty then acc else s) init

/-- Prefix letters of a code, in the specification's words: its maximal
leading run of uppercase letters. -/
def codeLetters (s : List Char) : List Char :=
  s.takeWhile isUpperAZ

/-- Numeric value of the digit block following the prefix letters. -/
def codeDigitsVal (s : List Char) : Nat :=
  natDigits ((s.dropWhile isUpperAZ).takeWhile isDigitChar)

/-- Suffix of a code in the specification's words: the characters after
the dot that follows the digit block, empty when there is no dot. -/
def codeSuffix (s : List Char) : List Char :=
  match (s.dropWhile isUpperAZ).dropWhile isDigitChar with
  | c :: suf => if c == '.' then suf else []
  | [] => []

/-- Whether a string parses under the lenient pattern of the sort key
(letters, digits, optional dot suffix covering the whole string). -/
def sortKeyMatches (s : List Char) : Bool :=
  let p := splitCode s
  !p.1.isEmpty && !p.2.1.isEmpty &&
    (match p.2.2 with
     | [] => true
     | c :: suf => c == '.' && !suf.isEmpty && suf.all isCodeSufChar)

/-- The parsed absolute URL an anchor's href resolves to: the href is
stripped and joined against the base URL with a trailing slash, then
parsed. -/
def anchorResolved (parse : List Char → ParsedUrl)
    (join : List Char → List Char → List Char)
    (baseUrl href : List Char) : ParsedUrl :=
  parse (join (baseUrl ++ ['/']) (trimWs href))

/-- Concrete miniature parse capability for evaluating the link collector
on a closed example: it knows the base URL and one catalogue link. -/
def parseToy (s : List Char) : ParsedUrl :=
  if s == ['h', 't', 't', 'p', ':', '/', '/', 'e', 'x', '/', 'c', '/', 'p'] then
    { scheme := ['h', 't', 't', 'p'], netloc := ['e', 'x'],
      path := ['/', 'c', '/', 'p'], query := [] }
  else if s == ['h', 't', 't', 'p', ':', '/', '/', 'e', 'x'] then
    { scheme := ['h', 't', 't', 'p'], netloc := ['e', 'x'], path := [], query := [] }
  else { scheme := [], netloc := [], path := [], query := [] }

/-- Concrete miniature join capability: treats every href as already
absolute, as urljoin does for absolute references. -/
def joinToy (_base href : List Char) : List Char :=
  href

/-- The concrete base URL the miniature parse capability knows. -/
def baseToy : List Char :=
  ['h', 't', 't', 'p', ':', '/', '/', 'e', 'x']

/-- The concrete catalogue link the miniature parse capability knows. -/
def hrefToy : List Char :=
  ['h', 't', 't', 'p', ':', '/', '/', 'e', 'x', '/', 'c', '/', 'p']

/-- Adjacency relation stating that two neighbouring characters are not
both whitespace; the output of the whitespace collapse satisfies it
everywhere. -/
def NotBothWs (a b : Char) : Prop :=
  isWsChar a = true → isWsChar b = true → False

/-- Claim C9: the constructor clamps the configured inter-fetch delay to
be non-negative, the stored delay equals max of zero and the argument,
and with a negative delay argument the resulting configuration is the
same as with delay zero. -/
theorem c9_delay_clamped (baseUrl indexPath catalogPfx : List Char) (d : ℚ) :
    0 ≤ (mkScraper baseUrl indexPath catalogPfx d).delay ∧
    (mkScraper baseUrl indexPath catalogPfx d).delay = max 0 d ∧
    (d < 0 → mkScraper baseUrl indexPath catalogPfx d =
      mkScraper baseUrl indexPath catalogPfx 0) := by
  refine ⟨le_max_left 0 d, rfl, fun hd => ?_⟩
  unfold mkScraper
  have hmax : max 0 d = ((0 : ℚ)) := max_eq_left hd.le
  rw [hmax]
  simp

/-- Witness for C9 at the concrete negative delay minus one. -/
theorem c9_delay_clamped_witness :
    0 ≤ (mkScraper [] [] [] (-1)).delay ∧
    mkScraper [] [] [] (-1) = mkScraper [] [] [] 0 := by
  refine ⟨(c9_delay_clamped [] [] [] (-1)).1, ?_⟩
  exact (c9_delay_clamped [] [] [] (-1)).2.2 (by norm_num)

/-- Claim C6: entry normalisation returns none exactly when the primary
text is still blank after the repair steps, and every returned entry has
non-empty primary text, the original code, and the repaired fields. -/
theorem c6_normalise_entry (e : MKBEntry) :
    (normaliseEntry e = none ↔ (repairFields e).1 = []) ∧
    (∀ e2, normaliseEntry e = some e2 →
      e2.code = e.code ∧ e2.serbian = (repairFields e).1 ∧
      e2.serbian ≠ [] ∧ e2.latin = (repairFields e).2) := by
  unfold normaliseEntry
  by_cases h : (repairFields e).1.isEmpty
  · have h2 : (repairFields e).1 = [] := by simpa using h
    simp [h, h2]
  · have h2 : (repairFields e).1 ≠ [] := by simpa using h
    simp only [h, if_false, Bool.false_eq_true]
    constructor
    · simp [h2]
    · intro e2 he2
      cases he2
      exact ⟨rfl, rfl, h2, rfl⟩

/-- Witness for C6 at a concrete entry whose alternate text is promoted
by the spaced-dash split. -/
theorem c6_normalise_entry_witness :
    ({ code := ['A', '0', '0'], serbian := ['K'], latin := ['C'] } : MKBEntry).code =
      ({ code := ['A', '0', '0'], serbian := [],
         latin := ['K', ' ', '-', ' ', 'C'] } : MKBEntry).code ∧
    ({ code := ['A', '0', '0'], serbian := ['K'], latin := ['C'] } : MKBEntry).serbian ≠ [] := by
  have h :=
    (c6_normalise_entry
      { code := ['A', '0', '0'], serbian := [], latin := ['K', ' ', '-', ' ', 'C'] }).2
      { code := ['A', '0', '0'], serbian := ['K'], latin := ['C'] } (by decide)
  exact ⟨h.1, h.2.2.1⟩

/-- The page loop errors exactly when some retained page carries no
entries. -/
theorem crawlPages_error_iff (pages : List (List Char × List MKBEntry)) :
    (∃ u, crawlPages pages = Except.error u) ↔ ∃ p ∈ pages, p.2 = [] := by
  induction pages with
  | nil => simp [crawlPages]
  | cons pg rest ih =>
      obtain ⟨url, es⟩ := pg
      by_cases he : es = []
      · subst he
        simp [crawlPages]
      · have hne : es.isEmpty = false := by simpa using he
        rcases hcr : crawlPages rest with e | more
        · have hcons : crawlPages ((url, es) :: rest) = Except.error e := by
            simp [crawlPages, hne, hcr]
          constructor
          · intro _
            rcases ih.mp ⟨e, hcr⟩ with ⟨p, hp, hp2⟩
            exact ⟨p, List.mem_cons_of_mem _ hp, hp2⟩
          · intro _
            exact ⟨e, hcons⟩
        · have hcons : crawlPages ((url, es) :: rest) = Except.ok (es ++ more) := by
            simp [crawlPages, hne, hcr]
          constructor
          · rintro ⟨u, hu⟩
            rw [hcons] at hu
            cases hu
          · rintro ⟨p, hp, hp2⟩
            rcases List.mem_cons.mp hp with hph | hpt
            · exact absurd (by rw [hph] at hp2; exact hp2) he
            · rcases ih.mpr ⟨p, hpt, hp2⟩ with ⟨u, hu⟩
              rw [hu] at hcr
              cases hcr

/-- Claim C5: a retained catalogue page with zero parsed entries aborts
the crawl with an error, whatever the index page yielded; and when every
retained page has entries the crawl succeeds even though the index page
yielded none. -/
theorem c5_fatal_on_empty (indexEntries : List MKBEntry)
    (pages : List (List Char × List MKBEntry)) :
    ((∃ p ∈ pages, p.2 = []) ↔ ∃ u, scrapeModel indexEntries pages = Except.error u) ∧
    ((∀ p ∈ pages, p.2 ≠ []) → ∃ out, scrapeModel [] pages = Except.ok out) := by
  have hkey : (∃ u, scrapeModel indexEntries pages = Except.error u) ↔
      ∃ u, crawlPages pages = Except.error u := by
    unfold scrapeModel
    rcases hcr : crawlPages pages with e | more
    · simp [hcr]
    · simp [hcr]
  constructor
  · rw [hkey]
    exact (crawlPages_error_iff pages).symm
  · intro hall
    rcases hcr : crawlPages pages with e | more
    · exfalso
      rcases (crawlPages_error_iff pages).mp ⟨e, hcr⟩ with ⟨p, hp, hp2⟩
      exact hall p hp hp2
    · refine ⟨sortEntries (deduplicate ([] ++ more)), ?_⟩
      simp [scrapeModel, hcr]

/-- Witness for C5: a concrete crawl with one empty retained page aborts,
and one with a single non-empty page succeeds with an entryless index. -/
theorem c5_fatal_on_empty_witness :
    (∃ u, scrapeModel [] [(['u'], [])] = Except.error u) ∧
    (∃ out, scrapeModel []
      [(['v'], [{ code := ['A', '0', '0'], serbian := ['x'], latin := [] }])] =
        Except.ok out) := by
  constructor
  · exact (c5_fatal_on_empty [] [(['u'], [])]).1.mp ⟨(['u'], []), by simp, rfl⟩
  · exact (c5_fatal_on_empty []
      [(['v'], [{ code := ['A', '0', '0'], serbian := ['x'], latin := [] }])]).2
      (by decide)

/-- The two range-filter formulations agree: the code keeps its accepted
ranges oriented, while the specification stores them raw and orients both
sides at each comparison. -/
theorem filterGo_eq_spec (pfx : List Char) :
    ∀ (cands : List (List Char × List Char)) (accepted : List (SortKey × SortKey)),
      filterGo pfx cands (accepted.map orientRange) = filterSpecGo pfx cands accepted := by
  intro cands
  induction cands with
  | nil => intro accepted; rfl
  | cons cand rest ih =>
      intro accepted
      obtain ⟨url, path⟩ := cand
      rcases hr : extractCodeRange pfx path with _ | ⟨s, e⟩
      · simp only [filterGo, filterSpecGo, hr]
        rw [ih]
      · simp only [filterGo, filterSpecGo, hr]
        have hany : (accepted.map orientRange).any
            (fun acc => coveredBy (orientRange (codeSortKey s, codeSortKey e)) acc) =
            accepted.any
              (fun a => coveredBy (orientRange (codeSortKey s, codeSortKey e))
                (orientRange a)) := by
          rw [List.any_map]
          rfl
        rw [hany]
        by_cases hc : accepted.any
            (fun a => coveredBy (orientRange (codeSortKey s, codeSortKey e))
              (orientRange a)) = true
        · simp only [hc, if_true]
          exact ih accepted
        · simp only [Bool.not_eq_true] at hc
          simp only [hc, Bool.false_eq_true, if_false]
          have hmap : List.map orientRange accepted ++
              [orientRange (codeSortKey s, codeSortKey e)] =
              List.map orientRange (accepted ++ [(codeSortKey s, codeSortKey e)]) := by
            simp
          rw [hmap, ih]

/-- Claim C4: processing candidates in order, a URL with an extractable
range is dropped exactly when a previously accepted range covers it after
orienting both ranges, rangeless URLs are always retained and never join
the accepted list, and the concrete candidate ranges A00-A09 then A00-A04
lead to the second URL being dropped. -/
theorem c4_range_covering (pfx : List Char) (cands : List (List Char × List Char)) :
    filterCatalogUrls pfx cands = filterCoveredSpec pfx cands ∧
    filterCatalogUrls ['/', 'c']
      [(['u', '1'], ['/', 'c', '/', 'A', '0', '0', '-', 'A', '0', '9']),
       (['u', '2'], ['/', 'c', '/', 'A', '0', '0', '-', 'A', '0', '4'])] = [['u', '1']] := by
  constructor
  · have h := filterGo_eq_spec pfx cands []
    simpa [filterCatalogUrls, filterCoveredSpec] using h
  · decide

/-- On a valid code the sort key is exactly the triple of prefix letters,
numeric value of the digit block, and suffix. -/
theorem codeSortKey_of_isCode {s : List Char} (h : isCode s = true) :
    codeSortKey s = (codeLetters s, codeDigitsVal s, codeSuffix s) := by
  unfold isCode splitCode at h
  simp only [Bool.and_eq_true, Bool.or_eq_true, beq_iff_eq] at h
  obtain ⟨⟨hlen, hdig⟩, hsuf⟩ := h
  have hL : (s.takeWhile isUpperAZ).isEmpty = false := by
    rcases hL0 : s.takeWhile isUpperAZ with _ | ⟨c, cs⟩
    · rw [hL0] at hlen
      simp at hlen
    · rfl
  have hD : ((s.dropWhile isUpperAZ).takeWhile isDigitChar).isEmpty = false := by
    rcases hD0 : (s.dropWhile isUpperAZ).takeWhile isDigitChar with _ | ⟨c, cs⟩
    · rw [hD0] at hdig
      simp at hdig
    · rfl
  simp only [codeSortKey, splitCode, codeLetters, codeDigitsVal, codeSuffix]
  rw [hL, hD]
  simp only [Bool.or_self, Bool.false_eq_true, if_false]
  rcases hR : (s.dropWhile isUpperAZ).dropWhile isDigitChar with _ | ⟨r0, rs⟩
  · rfl
  · rw [hR] at hsuf
    rcases hsuf with hemp | hok
    · simp at hemp
    · unfold sufOk at hok
      simp only [Bool.and_eq_true] at hok
      obtain ⟨⟨⟨hdot, hne⟩, _⟩, hall⟩ := hok
      simp [hdot, hne, hall]

/-- On a string rejected by the lenient sort-key pattern the sort key is
the raw text with zero and an empty suffix. -/
theorem codeSortKey_of_notMatches {s : List Char} (h : sortKeyMatches s = false) :
    codeSortKey s = (s, 0, []) := by
  simp only [sortKeyMatches, splitCode] at h
  simp only [codeSortKey, splitCode]
  by_cases hL : (s.takeWhile isUpperAZ).isEmpty
  · simp [hL]
  · by_cases hD : ((s.dropWhile isUpperAZ).takeWhile isDigitChar).isEmpty
    · simp [hD]
    · simp only [Bool.not_eq_true] at hL hD
      rw [hL, hD] at h ⊢
      simp only [Bool.not_false, Bool.true_and, Bool.or_self, Bool.false_eq_true, if_false]
      rcases hR : (s.dropWhile isUpperAZ).dropWhile isDigitChar with _ | ⟨r0, rs⟩
      · rw [hR] at h
        simp at h
      · rw [hR] at h
        simp only [Bool.and_eq_true] at h
        by_cases hcond : (r0 == '.' && !rs.isEmpty && rs.all isCodeSufChar) = true
        · rw [hcond] at h
          simp at h
        · simp only [Bool.not_eq_true] at hcond
          simp [hcond]

/-- Claim C3 (amended per the code): for two valid codes, comparing sort
keys is comparing prefix letters lexicographically, then the numeric
value of the digit block, then the suffix lexicographically; a string the
lenient sort-key pattern rejects gets the raw triple, and two such
strings compare lexicographically by raw text — but such strings do not
in general sort after the valid codes. -/
theorem c3_sort_key_order (a b s t : List Char) (ha : isCode a = true)
    (hb : isCode b = true) (hs : sortKeyMatches s = false)
    (ht : sortKeyMatches t = false) :
    keyLt (codeSortKey a) (codeSortKey b) =
      (charListLt (codeLetters a) (codeLetters b) ||
        ((codeLetters a == codeLetters b) &&
          (decide (codeDigitsVal a < codeDigitsVal b) ||
            ((codeDigitsVal a == codeDigitsVal b) &&
              charListLt (codeSuffix a) (codeSuffix b))))) ∧
    codeSortKey s = (s, 0, []) ∧
    keyLt (codeSortKey s) (codeSortKey t) = charListLt s t ∧
    (keyLt (codeSortKey ['A', '0', '0']) (codeSortKey ['A', '0', '0', '.', '0']) = true ∧
      keyLt (codeSortKey ['A', '0', '0', '.', '0']) (codeSortKey ['A', '0', '1']) = true ∧
      keyLt (codeSortKey ['A', '0', '1']) (codeSortKey ['B', '0', '0']) = true) := by
  refine ⟨?_, codeSortKey_of_notMatches hs, ?_, by decide⟩
  · rw [codeSortKey_of_isCode ha, codeSortKey_of_isCode hb]
    rfl
  · rw [codeSortKey_of_notMatches hs, codeSortKey_of_notMatches ht]
    simp [keyLt, charListLt]

/-- Counterexample to C3 as stated: the empty string fails the code
pattern, yet its sort key is strictly smaller than the key of the valid
code A00, not strictly greater. -/
theorem c3_counterexample :
    isCode ['A', '0', '0'] = true ∧ isCode [] = false ∧
    keyLt (codeSortKey []) (codeSortKey ['A', '0', '0']) = true ∧
    keyLt (codeSortKey ['A', '0', '0']) (codeSortKey []) = false := by decide

/-- Witness for C3 applying the theorem at concrete codes and concrete
pattern-failing strings. -/
theorem c3_sort_key_order_witness :
    codeSortKey ['x'] = (['x'], 0, []) :=
  (c3_sort_key_order ['A', '0', '0'] ['A', '0', '1'] ['x'] ['y']
    (by decide) (by decide) (by decide) (by decide)).2.1

/-- Head step of find? when the head satisfies the predicate, with the
predicate explicit for unification control. -/
theorem find?_cons_pos {α : Type} (p : α → Bool) (a : α) {l : List α} (h : p a = true) :
    (a :: l).find? p = some a := by
  simp [List.find?, h]

/-- Head step of find? when the head fails the predicate, with the
predicate explicit for unification control. -/
theorem find?_cons_neg {α : Type} (p : α → Bool) (a : α) {l : List α} (h : p a = false) :
    (a :: l).find? p = l.find? p := by
  simp [List.find?, h]

/-- Looking for a code in the merged-update image of the seen list: when
the new occurrence carries the searched code the found entry is the merge,
otherwise the search is unaffected. -/
theorem find_map_merge (e : MKBEntry) (c : List Char) :
    ∀ seen : List MKBEntry,
      (seen.map (fun x => if x.code == e.code then mergeEntry x e else x)).find?
          (fun x => x.code == c) =
        if e.code == c then
          (seen.find? (fun x => x.code == c)).map (fun x => mergeEntry x e)
        else seen.find? (fun x => x.code == c) := by
  intro seen
  induction seen with
  | nil =>
      by_cases hec : (e.code == c) = true
      · rw [if_pos hec]
        rfl
      · rw [if_neg hec]
        rfl
  | cons x xs ih =>
      simp only [List.map_cons]
      by_cases hxe : (x.code == e.code) = true
      · have hx : x.code = e.code := by simpa using hxe
        rw [if_pos hxe]
        by_cases hec : (e.code == c) = true
        · have hxc : (x.code == c) = true := by rw [hx]; exact hec
          rw [find?_cons_pos (fun y : MKBEntry => y.code == c) (mergeEntry x e) hec,
            if_pos hec, find?_cons_pos (fun y : MKBEntry => y.code == c) x hxc]
          rfl
        · have hec2 : (e.code == c) = false := by simpa using hec
          have hxc2 : (x.code == c) = false := by rw [hx]; exact hec2
          rw [find?_cons_neg (fun y : MKBEntry => y.code == c) (mergeEntry x e) hec2,
            if_neg hec, find?_cons_neg (fun y : MKBEntry => y.code == c) x hxc2]
          have h2 := ih
          rw [if_neg hec] at h2
          exact h2
      · rw [if_neg hxe]
        by_cases hxc : (x.code == c) = true
        · by_cases hec : (e.code == c) = true
          · exfalso
            have h1 : x.code = c := by simpa using hxc
            have h2 : e.code = c := by simpa using hec
            have h3 : x.code = e.code := by rw [h1, h2]
            simp [h3] at hxe
          · rw [find?_cons_pos (fun y : MKBEntry => y.code == c) x hxc, if_neg hec,
              find?_cons_pos (fun y : MKBEntry => y.code == c) x hxc]
        · have hxc2 : (x.code == c) = false := by simpa using hxc
          rw [find?_cons_neg (fun y : MKBEntry => y.code == c) x hxc2,
            find?_cons_neg (fun y : MKBEntry => y.code == c) x hxc2]
          exact ih

/-- Effect of one deduplication step on the entry found for a code. -/
theorem find_updateSeen (seen : List MKBEntry) (e : MKBEntry) (c : List Char) :
    (updateSeen seen e).find? (fun x => x.code == c) =
      if e.code == c then
        match seen.find? (fun x => x.code == c) with
        | some x => some (mergeEntry x e)
        | none => some e
      else seen.find? (fun x => x.code == c) := by
  unfold updateSeen
  by_cases hany : (seen.any (fun x => x.code == e.code)) = true
  · rw [if_pos hany, find_map_merge]
    by_cases hec : (e.code == c) = true
    · rw [if_pos hec, if_pos hec]
      have hc : e.code = c := by simpa using hec
      rcases List.any_eq_true.mp hany with ⟨x, hx, hpx⟩
      have hsome : (seen.find? (fun x => x.code == c)).isSome := by
        apply List.find?_isSome.mpr
        exact ⟨x, hx, by rw [← hc]; exact hpx⟩
      rcases hfind : seen.find? (fun x => x.code == c) with _ | y
      · rw [hfind] at hsome
        simp at hsome
      · rw [hfind]
        rfl
    · rw [if_neg hec, if_neg hec]
  · rw [if_neg hany]
    have hall : ∀ x ∈ seen, (x.code == e.code) = false := by
      intro x hx
      by_contra hb
      exact hany (List.any_eq_true.mpr ⟨x, hx, by simpa using hb⟩)
    rw [List.find?_append]
    by_cases hec : (e.code == c) = true
    · have hc : e.code = c := by simpa using hec
      have hnone : seen.find? (fun x => x.code == c) = none := by
        apply List.find?_eq_none.mpr
        intro x hx
        have h1 := hall x hx
        rw [hc] at h1
        simp [h1]
      rw [hnone, if_pos hec, find?_cons_pos (fun y : MKBEntry => y.code == c) e hec]
      rfl
    · have hec2 : (e.code == c) = false := by simpa using hec
      rw [if_neg hec, find?_cons_neg (fun y : MKBEntry => y.code == c) e hec2]
      simp

/-- Folding a blank starting value through the field merge is the same as
starting from the first value. -/
theorem mergeField_nil_cons (a : List Char) (l : List (List Char)) :
    mergeField [] (a :: l) = mergeField a l := by
  by_cases ha : a.isEmpty
  · have h0 : a = [] := by simpa using ha
    subst h0
    rfl
  · have ha2 : a ≠ [] := by simpa using ha
    simp [mergeField, ha2]

/-- Invariant of the deduplication fold: the entry found for a code is
the field-wise merge of the value found in the seen accumulator with the
occurrences of that code among the remaining entries. -/
theorem foldl_updateSeen_find (c : List Char) :
    ∀ (entries seen : List MKBEntry),
      ((entries.foldl updateSeen seen).find? (fun x => x.code == c)) =
        match seen.find? (fun x => x.code == c) with
        | some x0 =>
            some { code := x0.code,
                   serbian := mergeField x0.serbian
                     ((entries.filter (fun e => e.code == c)).map MKBEntry.serbian),
                   latin := mergeField x0.latin
                     ((entries.filter (fun e => e.code == c)).map MKBEntry.latin) }
        | none =>
            if entries.any (fun e => e.code == c) then
              some { code := c,
                     serbian := mergeField []
                       ((entries.filter (fun e => e.code == c)).map MKBEntry.serbian),
                     latin := mergeField []
                       ((entries.filter (fun e => e.code == c)).map MKBEntry.latin) }
            else none := by
  intro entries
  induction entries with
  | nil =>
      intro seen
      simp only [List.foldl_nil, List.filter_nil, List.map_nil, List.any_nil]
      rcases hf : seen.find? (fun x => x.code == c) with _ | x0 <;> rw [hf] <;> rfl
  | cons e0 rest ih =>
      intro seen
      simp only [List.foldl_cons]
      rw [ih (updateSeen seen e0), find_updateSeen]
      by_cases he0 : (e0.code == c) = true
      · rw [if_pos he0]
        have hc0 : e0.code = c := by simpa using he0
        rcases hf : seen.find? (fun x => x.code == c) with _ | x0
        · rw [hf]
          simp [List.filter_cons, List.any_cons, he0, mergeField_nil_cons, hc0]
        · have hx0code : x0.code = c := by
            have h1 := List.find?_some hf
            simpa using h1
          rw [hf]
          simp [List.filter_cons, List.any_cons, he0, mergeEntry, mergeField,
            hx0code, hc0]
      · rw [if_neg he0]
        have he02 : (e0.code == c) = false := by simpa using he0
        rcases hf : seen.find? (fun x => x.code == c) with _ | x0 <;> rw [hf] <;>
          simp [List.filter_cons, List.any_cons, he02]

/-- The codes of the deduplication output after one step. -/
theorem updateSeen_codes (seen : List MKBEntry) (e : MKBEntry) :
    (updateSeen seen e).map (fun x => x.code) =
      if seen.any (fun x => x.code == e.code) then seen.map (fun x => x.code)
      else seen.map (fun x => x.code) ++ [e.code] := by
  unfold updateSeen
  by_cases hany : (seen.any (fun x => x.code == e.code)) = true
  · rw [if_pos hany, if_pos hany, List.map_map]
    apply List.map_congr_left
    intro x _
    by_cases hxe : (x.code == e.code) = true
    · have hx : x.code = e.code := by simpa using hxe
      simp [hxe, mergeEntry, hx]
    · have hne : x.code ≠ e.code := by simpa using hxe
      simp [hne]
  · rw [if_neg hany, if_neg hany, List.map_append]
    rfl

/-- The deduplication output carries pairwise distinct codes. -/
theorem deduplicate_codes_nodup (entries : List MKBEntry) :
    ((deduplicate entries).map (fun x => x.code)).Nodup := by
  have h : ∀ (es seen : List MKBEntry),
      ((seen.map (fun x => x.code)).Nodup) →
        (((es.foldl updateSeen seen).map (fun x => x.code)).Nodup) := by
    intro es
    induction es with
    | nil => intro seen hseen; simpa using hseen
    | cons e0 rest ih =>
        intro seen hseen
        simp only [List.foldl_cons]
        apply ih
        rw [updateSeen_codes]
        by_cases hany : (seen.any (fun x => x.code == e0.code)) = true
        · rw [if_pos hany]
          exact hseen
        · rw [if_neg hany]
          have hnotin : e0.code ∉ seen.map (fun x => x.code) := by
            intro hmem
            rcases List.mem_map.mp hmem with ⟨x, hx, hxc⟩
            exact hany (List.any_eq_true.mpr ⟨x, hx, by simp [hxc]⟩)
          simp [List.nodup_append, hseen, hnotin]
  simpa [deduplicate] using h entries [] (by simp)

/-- Claim C1 (amended per the code): deduplication keeps a single entry
per code, and each of its text fields carries the value of the latest
entry with that code whose field is non-blank in input order — a later
non-blank occurrence overwrites the kept value, so precedence is
last-writer-wins per field, not first. -/
theorem c1_dedup_merge (entries : List MKBEntry) (c : List Char) :
    ((deduplicate entries).find? (fun x => x.code == c) =
      if entries.any (fun e => e.code == c) then
        some { code := c,
               serbian := mergeField []
                 ((entries.filter (fun e => e.code == c)).map MKBEntry.serbian),
               latin := mergeField []
                 ((entries.filter (fun e => e.code == c)).map MKBEntry.latin) }
      else none) ∧
    ((deduplicate entries).map (fun x => x.code)).Nodup := by
  constructor
  · have h := foldl_updateSeen_find c entries []
    simpa [deduplicate] using h
  · exact deduplicate_codes_nodup entries

/-- Counterexample to C1 as stated: two occurrences of code A00 whose
primary fields are both non-blank; the kept entry carries the second
occurrence's value, not the first's as first-writer-wins would demand. -/
theorem c1_counterexample :
    deduplicate
      [{ code := ['A', '0', '0'], serbian := ['x'], latin := [] },
       { code := ['A', '0', '0'], serbian := ['y'], latin := [] }] =
      [{ code := ['A', '0', '0'], serbian := ['y'], latin := [] }] ∧
    (['y'] : List Char) ≠ ['x'] := by decide

/-- Dropping a leading run is the identity when the head already fails
the predicate. -/
theorem dropWhile_eq_self_of_head {p : Char → Bool} {l : List Char}
    (h : ∀ c, l.head? = some c → p c = false) : l.dropWhile p = l := by
  cases l with
  | nil => rfl
  | cons a l2 =>
      have ha := h a rfl
      simp [List.dropWhile_cons, ha]

/-- Trimming both ends is the identity when neither end satisfies the
trimming predicate. -/
theorem trimBoth_eq_self {p : Char → Bool} {l : List Char}
    (hhead : ∀ c, l.head? = some c → p c = false)
    (hlast : ∀ c, l.getLast? = some c → p c = false) : trimBoth p l = l := by
  unfold trimBoth
  rw [dropWhile_eq_self_of_head hhead]
  have h2 : ∀ c, l.reverse.head? = some c → p c = false := by
    intro c hc
    apply hlast
    rw [← List.head?_reverse]
    exact hc
  rw [dropWhile_eq_self_of_head h2, List.reverse_reverse]

/-- Claim C7 (amended per the code): label stripping leaves a string
unchanged when no label matches at its start and additionally neither its
first nor its last character is one of the separator characters the
function always strips from both ends. -/
theorem c7_strip_labels_noop (l : List Char) (hlab : labelMatch l = none)
    (hhead : l.head?.all (fun c => !isStripSep c) = true)
    (hlast : l.getLast?.all (fun c => !isStripSep c) = true) :
    stripLabels l = l := by
  have hhead2 : ∀ c, l.head? = some c → isStripSep c = false := by
    intro c hc
    rw [hc] at hhead
    simpa using hhead
  have hlast2 : ∀ c, l.getLast? = some c → isStripSep c = false := by
    intro c hc
    rw [hc] at hlast
    simpa using hlast
  unfold stripLabels
  by_cases hemp : l.isEmpty
  · have h0 : l = [] := by simpa using hemp
    rw [if_pos hemp]
    exact h0.symm
  · rw [if_neg hemp, hlab]
    exact trimBoth_eq_self hhead2 hlast2

/-- Counterexample to C7 as stated: the string x-dash starts with no
recognized label, yet label stripping removes the trailing dash. -/
theorem c7_counterexample :
    labelMatch ['x', '-'] = none ∧ stripLabels ['x', '-'] ≠ ['x', '-'] ∧
    stripLabels ['x', '-'] = ['x'] := by decide

/-- Witness for C7 at a concrete unlabeled string free of edge
separators. -/
theorem c7_strip_labels_noop_witness : stripLabels ['a', 'b'] = ['a', 'b'] :=
  c7_strip_labels_noop ['a', 'b'] (by decide) (by decide) (by decide)

/-- One step of the sibling scan agrees with the per-node classification
while the counter has not yet passed ten. -/
theorem eflGo_cons (idx : Nat) (sib : DomNode) (rest : List DomNode)
    (h : ¬ 10 < idx) :
    eflGo idx (sib :: rest) =
      match classifySib sib with
      | SibStep.grab t => t
      | SibStep.halt => []
      | SibStep.skip => eflGo (idx + 1) rest := by
  cases sib with
  | text s =>
      simp only [eflGo, classifySib]
      rw [if_neg (by simpa using h)]
      by_cases hc : containsLatinLabel (normalizeText s) = true
      · simp [hc]
      · have hc2 : containsLatinLabel (normalizeText s) = false := by simpa using hc
        simp [hc2]
  | elem name classes inner =>
      simp only [eflGo, classifySib]
      rw [if_neg (by simpa using h)]
      by_cases hbr : (name == ['b', 'r']) = true
      · simp [hbr]
      · have hbr2 : (name == ['b', 'r']) = false := by simpa using hbr
        simp only [hbr2, Bool.false_eq_true, if_false]
        by_cases hemp : (normalizeText inner).isEmpty
        · simp [hemp]
        · have hemp2 : (normalizeText inner).isEmpty = false := by simpa using hemp
          simp only [hemp2, Bool.false_eq_true, if_false]
          by_cases hgr : (name == ['e', 'm'] || name == ['i'] || hasLatinClass classes ||
              containsLatinLabel (normalizeText inner)) = true
          · simp [hgr]
          · have hgr2 : (name == ['e', 'm'] || name == ['i'] || hasLatinClass classes ||
                containsLatinLabel (normalizeText inner)) = false := by simpa using hgr
            simp only [hgr2, Bool.false_eq_true, if_false]
            by_cases hh : name.head?.getD ' ' = 'h'
            · simp [hh]
            · simp [hh]

/-- The sibling scan started at counter idx examines only the first
eleven-minus-idx siblings, and the first non-skipped one decides the
result. -/
theorem eflGo_spec (sibs : List DomNode) :
    ∀ idx, idx ≤ 11 →
      eflGo idx sibs =
        (match ((sibs.take (11 - idx)).map classifySib).find?
            (fun a => a != SibStep.skip) with
         | some (SibStep.grab t) => t
         | _ => []) := by
  induction sibs with
  | nil =>
      intro idx h
      simp [eflGo]
  | cons sib rest ih =>
      intro idx h
      by_cases hidx : 10 < idx
      · have h11 : idx = 11 := by omega
        subst h11
        simp [eflGo]
      · rw [eflGo_cons idx sib rest hidx]
        have htake : (sib :: rest).take (11 - idx) = sib :: rest.take (10 - idx) := by
          have h1 : 11 - idx = (10 - idx) + 1 := by omega
          rw [h1]
          rfl
        rw [htake]
        simp only [List.map_cons]
        rcases hcl : classifySib sib with _ | t | _
        · rw [find?_cons_neg (fun a : SibStep => a != SibStep.skip) SibStep.skip
            (by decide)]
          have h10 : 10 - idx = 11 - (idx + 1) := by omega
          rw [h10]
          exact ih (idx + 1) (by omega)
        · rw [find?_cons_pos (fun a : SibStep => a != SibStep.skip) (SibStep.grab t)
            (by simp)]
        · rw [find?_cons_pos (fun a : SibStep => a != SibStep.skip) SibStep.halt
            (by decide)]

/-- Claim C8 (amended per the code): the heading strategy's alternate
lookup scans the following siblings at indices zero through ten (eleven
nodes, not ten), takes the label-stripped text of the first sibling that
is a latin-labelled text node or an emphasized, latin-classed or
latin-labelled element, skips br and empty-text nodes — including empty
headings — and stops with an empty result at the first remaining
non-empty element whose tag name starts with h. -/
theorem c8_following_latin (sibs : List DomNode) :
    extractFollowingLatin sibs = extractFollowingLatinSpec sibs ∧
    extractFollowingLatin sibs = extractFollowingLatin (sibs.take 11) := by
  have h1 := eflGo_spec sibs 0 (by omega)
  have h2 := eflGo_spec (sibs.take 11) 0 (by omega)
  constructor
  · unfold extractFollowingLatin extractFollowingLatinSpec
    simpa using h1
  · unfold extractFollowingLatin
    rw [h1, h2]
    simp [List.take_take]

/-- Counterexample to C8 as stated: the emphasized node is the eleventh
sibling, ten text fillers precede it, beyond the claimed ten-node window,
yet the scan returns its text; and an empty heading among the siblings
does not stop the scan. -/
theorem c8_counterexample :
    (List.replicate 10 (DomNode.text ['x']) ++
        [DomNode.elem ['e', 'm'] [] ['C', 'h', 'o']]).length = 11 ∧
    extractFollowingLatin
      (List.replicate 10 (DomNode.text ['x']) ++
        [DomNode.elem ['e', 'm'] [] ['C', 'h', 'o']]) = ['C', 'h', 'o'] ∧
    extractFollowingLatin
      [DomNode.elem ['h', '3'] [] [],
       DomNode.elem ['e', 'm'] [] ['C', 'h', 'o']] = ['C', 'h', 'o'] := by decide

/-- The range filter only ever keeps URLs that were among its
candidates. -/
theorem filterGo_mem (pfx : List Char) :
    ∀ (cands : List (List Char × List Char)) (covered : List (SortKey × SortKey))
      (u : List Char), u ∈ filterGo pfx cands covered → ∃ p, (u, p) ∈ cands := by
  intro cands
  induction cands with
  | nil =>
      intro covered u h
      simp [filterGo] at h
  | cons cand rest ih =>
      intro covered u h
      obtain ⟨url, path⟩ := cand
      simp only [filterGo] at h
      rcases hr : extractCodeRange pfx path with _ | ⟨s, e⟩
      · rw [hr] at h
        rcases List.mem_cons.mp h with h1 | h2
        · exact ⟨path, by rw [h1]; exact List.mem_cons_self _ _⟩
        · rcases ih covered u h2 with ⟨p, hp⟩
          exact ⟨p, List.mem_cons_of_mem _ hp⟩
      · rw [hr] at h
        have h2 : u ∈ (if (covered.any fun acc =>
            coveredBy (orientRange (codeSortKey s, codeSortKey e)) acc) = true then
              filterGo pfx rest covered
            else url :: filterGo pfx rest
              (covered ++ [orientRange (codeSortKey s, codeSortKey e)])) := h
        by_cases hc : (covered.any fun acc =>
            coveredBy (orientRange (codeSortKey s, codeSortKey e)) acc) = true
        · rw [if_pos hc] at h2
          rcases ih covered u h2 with ⟨p, hp⟩
          exact ⟨p, List.mem_cons_of_mem _ hp⟩
        · rw [if_neg hc] at h2
          rcases List.mem_cons.mp h2 with h1 | h3
          · exact ⟨path, by rw [h1]; exact List.mem_cons_self _ _⟩
          · rcases ih _ u h3 with ⟨p, hp⟩
            exact ⟨p, List.mem_cons_of_mem _ hp⟩

/-- Every candidate pair produced by the link collector comes from an
anchor whose stripped href is non-empty and not a fragment, whose
resolution has an accepted scheme and the base host, and whose
slash-stripped path is non-empty and carries the catalogue prefix. -/
theorem collectGo_mem (parse : List Char → ParsedUrl)
    (join : List Char → List Char → List Char) (baseUrl pfx : List Char) :
    ∀ (hrefs seen : List (List Char)) (u p : List Char),
      (u, p) ∈ collectGo parse join baseUrl pfx hrefs seen →
      ∃ href ∈ hrefs,
        trimWs href ≠ [] ∧
        (trimWs href).headD ' ' ≠ '#' ∧
        httpScheme (anchorResolved parse join baseUrl href).scheme = true ∧
        (anchorResolved parse join baseUrl href).netloc = (parse baseUrl).netloc ∧
        p = rstripSlash (anchorResolved parse join baseUrl href).path ∧
        p ≠ [] ∧
        pfx.isPrefixOf p = true ∧
        u = normalizedUrl (anchorResolved parse join baseUrl href) p := by
  intro hrefs
  induction hrefs with
  | nil =>
      intro seen u p h
      simp [collectGo] at h
  | cons href hrefs2 ih =>
      intro seen u p h
      simp only [collectGo] at h
      by_cases h1 : ((trimWs href).isEmpty || (trimWs href).headD ' ' == '#') = true
      · rw [if_pos h1] at h
        rcases ih seen u p h with ⟨href2, hmem, hrest⟩
        exact ⟨href2, List.mem_cons_of_mem _ hmem, hrest⟩
      · rw [if_neg h1] at h
        by_cases h2 : (!httpScheme (parse (join (baseUrl ++ ['/']) (trimWs href))).scheme)
            = true
        · rw [if_pos h2] at h
          rcases ih seen u p h with ⟨href2, hmem, hrest⟩
          exact ⟨href2, List.mem_cons_of_mem _ hmem, hrest⟩
        · rw [if_neg h2] at h
          by_cases h3 : ((parse (join (baseUrl ++ ['/']) (trimWs href))).netloc !=
              (parse baseUrl).netloc) = true
          · rw [if_pos h3] at h
            rcases ih seen u p h with ⟨href2, hmem, hrest⟩
            exact ⟨href2, List.mem_cons_of_mem _ hmem, hrest⟩
          · rw [if_neg h3] at h
            by_cases h4 : ((rstripSlash (parse (join (baseUrl ++ ['/'])
                (trimWs href))).path).isEmpty ||
                !pfx.isPrefixOf (rstripSlash (parse (join (baseUrl ++ ['/'])
                  (trimWs href))).path)) = true
            · rw [if_pos h4] at h
              rcases ih seen u p h with ⟨href2, hmem, hrest⟩
              exact ⟨href2, List.mem_cons_of_mem _ hmem, hrest⟩
            · rw [if_neg h4] at h
              by_cases h5 : (seen.contains (normalizedUrl
                  (parse (join (baseUrl ++ ['/']) (trimWs href)))
                  (rstripSlash (parse (join (baseUrl ++ ['/'])
                    (trimWs href))).path))) = true
              · rw [if_pos h5] at h
                rcases ih seen u p h with ⟨href2, hmem, hrest⟩
                exact ⟨href2, List.mem_cons_of_mem _ hmem, hrest⟩
              · rw [if_neg h5] at h
                rcases List.mem_cons.mp h with hhead | htail
                · refine ⟨href, List.mem_cons_self _ _, ?_⟩
                  have h1x : ((trimWs href).isEmpty ||
                      ((trimWs href).headD ' ' == '#')) = false :=
                    Bool.eq_false_iff.mpr h1
                  rcases Bool.or_eq_false_iff.mp h1x with ⟨h1a, h1b⟩
                  have h4x : ((rstripSlash (parse (join (baseUrl ++ ['/'])
                      (trimWs href))).path).isEmpty ||
                      !pfx.isPrefixOf (rstripSlash (parse (join (baseUrl ++ ['/'])
                        (trimWs href))).path)) = false :=
                    Bool.eq_false_iff.mpr h4
                  rcases Bool.or_eq_false_iff.mp h4x with ⟨h4a, h4b⟩
                  have hsch : httpScheme (anchorResolved parse join baseUrl
                      href).scheme = true := by
                    have h2b : (!httpScheme (parse (join (baseUrl ++ ['/'])
                        (trimWs href))).scheme) = false :=
                      Bool.eq_false_iff.mpr h2
                    simpa [anchorResolved] using h2b
                  have hnet : (anchorResolved parse join baseUrl href).netloc =
                      (parse baseUrl).netloc := by
                    have h3b : ((parse (join (baseUrl ++ ['/'])
                        (trimWs href))).netloc != (parse baseUrl).netloc) = false :=
                      Bool.eq_false_iff.mpr h3
                    simpa [anchorResolved] using h3b
                  have hueq : u = normalizedUrl
                      (parse (join (baseUrl ++ ['/']) (trimWs href)))
                      (rstripSlash (parse (join (baseUrl ++ ['/'])
                        (trimWs href))).path) := congrArg Prod.fst hhead
                  have hpeq : p = rstripSlash (parse (join (baseUrl ++ ['/'])
                      (trimWs href))).path := congrArg Prod.snd hhead
                  rw [← hpeq] at hueq h4a h4b
                  refine ⟨by simpa using h1a, by simpa using h1b, hsch, hnet, hpeq,
                    by simpa using h4a, by simpa using h4b, hueq⟩
                · rcases ih _ u p htail with ⟨href2, hmem, hrest⟩
                  exact ⟨href2, List.mem_cons_of_mem _ hmem, hrest⟩

/-- Claim C10: every URL returned by link discovery is derived from an
anchor whose stripped href is non-empty and not a fragment, whose
resolved URL has scheme http or https and the same host as the configured
base URL, and whose slash-stripped path is non-empty and starts with the
catalogue path prefix; the returned string is the normalized form of that
resolution. -/
theorem c10_link_discovery (parse : List Char → ParsedUrl)
    (join : List Char → List Char → List Char) (baseUrl pfx : List Char)
    (hrefs : List (List Char)) (u : List Char)
    (hu : u ∈ collectCatalogUrls parse join baseUrl pfx hrefs) :
    ∃ href ∈ hrefs,
      trimWs href ≠ [] ∧
      (trimWs href).headD ' ' ≠ '#' ∧
      httpScheme (anchorResolved parse join baseUrl href).scheme = true ∧
      (anchorResolved parse join baseUrl href).netloc = (parse baseUrl).netloc ∧
      rstripSlash (anchorResolved parse join baseUrl href).path ≠ [] ∧
      pfx.isPrefixOf (rstripSlash (anchorResolved parse join baseUrl href).path)
        = true ∧
      u = normalizedUrl (anchorResolved parse join baseUrl href)
        (rstripSlash (anchorResolved parse join baseUrl href).path) := by
  rcases filterGo_mem pfx _ [] u hu with ⟨p, hp⟩
  rcases collectGo_mem parse join baseUrl pfx hrefs [] u p hp with
    ⟨href, hmem, hne, hfrag, hscheme, hnet, hpeq, hpne, hpfx, hueq⟩
  subst hpeq
  exact ⟨href, hmem, hne, hfrag, hscheme, hnet, hpne, hpfx, hueq⟩

/-- Witness for C10: the miniature capabilities discover exactly the one
well-formed catalogue link, and the theorem applies to it. -/
theorem c10_link_discovery_witness :
    ∃ href ∈ [hrefToy],
      trimWs href ≠ [] ∧
      (trimWs href).headD ' ' ≠ '#' ∧
      httpScheme (anchorResolved parseToy joinToy baseToy href).scheme = true ∧
      (anchorResolved parseToy joinToy baseToy href).netloc =
        (parseToy baseToy).netloc ∧
      rstripSlash (anchorResolved parseToy joinToy baseToy href).path ≠ [] ∧
      (['/', 'c'] : List Char).isPrefixOf
        (rstripSlash (anchorResolved parseToy joinToy baseToy href).path) = true ∧
      hrefToy = normalizedUrl (anchorResolved parseToy joinToy baseToy href)
        (rstripSlash (anchorResolved parseToy joinToy baseToy href).path) :=
  c10_link_discovery parseToy joinToy baseToy ['/', 'c'] [hrefToy] hrefToy
    (by decide)

/-- The first element surviving a dropWhile fails the predicate. -/
theorem head?_dropWhile (p : Char → Bool) :
    ∀ (l : List Char) (c : Char), (l.dropWhile p).head? = some c → p c = false := by
  intro l
  induction l with
  | nil =>
      intro c h
      simp at h
  | cons a l2 ih =>
      intro c h
      by_cases ha : p a = true
      · rw [List.dropWhile_cons, if_pos ha] at h
        exact ih c h
      · rw [List.dropWhile_cons, if_neg ha] at h
        simp only [List.head?_cons, Option.some.injEq] at h
        rw [← h]
        simpa using ha

/-- A chain along a relation restricts to every suffix. -/
theorem chain'_suffix {R : Char → Char → Prop} {l1 l2 : List Char}
    (h : List.Chain' R l2) (hs : l1 <:+ l2) : List.Chain' R l1 := by
  rcases hs with ⟨t, rfl⟩
  exact (List.chain'_append.mp h).2.1

/-- The collapse of a non-empty list starts with its first character,
turned into a space when it is whitespace. -/
theorem collapseWs_head :
    ∀ (r : List Char) (d : Char),
      ∃ t, collapseWs (d :: r) = (if isWsChar d then ' ' else d) :: t := by
  intro r
  induction r with
  | nil =>
      intro d
      by_cases hd : isWsChar d = true
      · exact ⟨[], by simp [collapseWs, hd]⟩
      · exact ⟨[], by simp [collapseWs, hd]⟩
  | cons e r2 ih =>
      intro d
      by_cases hde : (isWsChar d && isWsChar e) = true
      · rcases ih e with ⟨t, ht⟩
        rcases (by simpa using hde : isWsChar d = true ∧ isWsChar e = true) with ⟨hd, he⟩
        refine ⟨t, ?_⟩
        simp only [collapseWs]
        rw [if_pos hde, ht]
        simp [hd, he]
      · refine ⟨collapseWs (e :: r2), ?_⟩
        simp only [collapseWs]
        rw [if_neg hde]

/-- Every whitespace character in the collapse output is a plain space. -/
theorem collapseWs_space :
    ∀ (l : List Char) (c : Char), c ∈ collapseWs l → isWsChar c = true → c = ' ' := by
  intro l
  induction l with
  | nil =>
      intro c hc _
      simp [collapseWs] at hc
  | cons a l2 ih =>
      intro c hc hw
      cases l2 with
      | nil =>
          by_cases ha : isWsChar a = true
          · simp [collapseWs, ha] at hc
            exact hc
          · simp [collapseWs, ha] at hc
            rw [hc] at hw
            exact absurd hw (by simpa using ha)
      | cons b l3 =>
          simp only [collapseWs] at hc
          by_cases hab : (isWsChar a && isWsChar b) = true
          · rw [if_pos hab] at hc
            exact ih c hc hw
          · rw [if_neg hab] at hc
            rcases List.mem_cons.mp hc with h1 | h2
            · by_cases ha : isWsChar a = true
              · rw [h1, if_pos ha]
              · rw [if_neg ha] at h1
                rw [h1] at hw
                exact absurd hw (by simpa using ha)
            · exact ih c h2 hw

/-- No two adjacent characters of the collapse output are both
whitespace. -/
theorem collapseWs_chain :
    ∀ l : List Char, List.Chain' NotBothWs (collapseWs l) := by
  intro l
  induction l with
  | nil => simp [collapseWs]
  | cons a l2 ih =>
      cases l2 with
      | nil =>
          by_cases ha : isWsChar a = true <;> simp [collapseWs, ha]
      | cons b l3 =>
          simp only [collapseWs]
          by_cases hab : (isWsChar a && isWsChar b) = true
          · rw [if_pos hab]
            exact ih
          · rw [if_neg hab]
            rcases collapseWs_head l3 b with ⟨t, ht⟩
            rw [ht]
            apply List.chain'_cons.mpr
            constructor
            · intro h1 h2
              by_cases ha : isWsChar a = true
              · have hb : isWsChar b = false := by
                  by_cases hb0 : isWsChar b = true
                  · exact absurd (by simp [ha, hb0]) hab
                  · simpa using hb0
                rw [if_neg (by simp [hb])] at h2
                rw [hb] at h2
                cases h2
              · rw [if_neg ha] at h1
                exact absurd h1 (by simpa using ha)
            · rw [← ht]
              exact ih

/-- The collapse is the identity on a list whose whitespace characters
are all plain spaces with no two adjacent. -/
theorem collapseWs_eq_self :
    ∀ l : List Char, (∀ c ∈ l, isWsChar c = true → c = ' ') →
      List.Chain' NotBothWs l → collapseWs l = l := by
  intro l
  induction l with
  | nil => intro _ _; rfl
  | cons a l2 ih =>
      intro hsp hch
      cases l2 with
      | nil =>
          by_cases ha : isWsChar a = true
          · have ha2 : a = ' ' := hsp a (by simp) ha
            simp [collapseWs, ha, ha2]
          · simp [collapseWs, ha]
      | cons b l3 =>
          have hnb := (List.chain'_cons.mp hch).1
          have hab : (isWsChar a && isWsChar b) = false := by
            by_cases ha : isWsChar a = true
            · by_cases hb : isWsChar b = true
              · exact absurd hb (by intro hb2; exact hnb ha hb2)
              · simp [(by simpa using hb : isWsChar b = false)]
            · simp [(by simpa using ha : isWsChar a = false)]
          simp only [collapseWs]
          rw [if_neg (by simp [hab])]
          have hhead : (if isWsChar a then ' ' else a) = a := by
            by_cases ha : isWsChar a = true
            · rw [if_pos ha]
              exact (hsp a (by simp) ha).symm
            · rw [if_neg ha]
          rw [hhead]
          congr 1
          exact ih (fun c hc hw => hsp c (by simp [hc]) hw) (List.chain'_cons.mp hch).2

/-- Claim C2 (amended per the code): text normalization is idempotent on
every string whose normalized form is a fixed point of entity unescaping,
that is, whose normalized form contains no further decodable character
reference; nested references such as double-escaped ampersands violate
unconditional idempotence. -/
theorem c2_normalize_idempotent (s : List Char)
    (h : unescapeList (normalizeText s) = normalizeText s) :
    normalizeText (normalizeText s) = normalizeText s := by
  have key : ∀ u : List Char,
      unescapeList (trimWs (collapseWs u)) = trimWs (collapseWs u) →
      normalizeText (trimWs (collapseWs u)) = trimWs (collapseWs u) := by
    intro u hu
    unfold normalizeText
    rw [hu]
    have hspY : ∀ c ∈ collapseWs u, isWsChar c = true → c = ' ' :=
      fun c hc => collapseWs_space u c hc
    have hchY : List.Chain' NotBothWs (collapseWs u) := collapseWs_chain u
    have hA : List.Chain' NotBothWs ((collapseWs u).dropWhile isWsChar) :=
      chain'_suffix hchY (List.dropWhile_suffix isWsChar)
    have hArev : List.Chain' NotBothWs
        ((collapseWs u).dropWhile isWsChar).reverse := by
      rw [List.chain'_reverse]
      exact hA.imp (fun a b hab h1 h2 => hab h2 h1)
    have hB : List.Chain' NotBothWs
        (((collapseWs u).dropWhile isWsChar).reverse.dropWhile isWsChar) :=
      chain'_suffix hArev (List.dropWhile_suffix isWsChar)
    have hXchain : List.Chain' NotBothWs (trimWs (collapseWs u)) := by
      unfold trimWs trimBoth
      rw [List.chain'_reverse]
      exact hB.imp (fun a b hab h1 h2 => hab h2 h1)
    have hXmem : ∀ c ∈ trimWs (collapseWs u), c ∈ collapseWs u := by
      intro c hc
      unfold trimWs trimBoth at hc
      rw [List.mem_reverse] at hc
      have hc2 := (List.dropWhile_suffix isWsChar).subset hc
      rw [List.mem_reverse] at hc2
      exact (List.dropWhile_suffix isWsChar).subset hc2
    have hXsp : ∀ c ∈ trimWs (collapseWs u), isWsChar c = true → c = ' ' :=
      fun c hc => hspY c (hXmem c hc)
    rw [collapseWs_eq_self (trimWs (collapseWs u)) hXsp hXchain]
    show trimBoth isWsChar (trimWs (collapseWs u)) = trimWs (collapseWs u)
    apply trimBoth_eq_self
    · intro c hc
      unfold trimWs trimBoth at hc
      rw [List.head?_reverse] at hc
      rcases hBne : ((collapseWs u).dropWhile isWsChar).reverse.dropWhile isWsChar
        with _ | ⟨x, xs⟩
      · rw [hBne] at hc
        simp at hc
      · have hBne2 : ((collapseWs u).dropWhile isWsChar).reverse.dropWhile isWsChar
            ≠ [] := by
          rw [hBne]
          simp
        rcases List.dropWhile_suffix
          (l := ((collapseWs u).dropWhile isWsChar).reverse) isWsChar with ⟨t, ht⟩
        have h1 : (((collapseWs u).dropWhile isWsChar).reverse.dropWhile
            isWsChar).getLast? =
            (((collapseWs u).dropWhile isWsChar).reverse).getLast? := by
          conv_rhs => rw [← ht]
          rw [List.getLast?_append_of_ne_nil _ hBne2]
        rw [h1, List.getLast?_reverse] at hc
        exact head?_dropWhile isWsChar _ c hc
    · intro c hc
      unfold trimWs trimBoth at hc
      rw [List.getLast?_reverse] at hc
      exact head?_dropWhile isWsChar _ c hc
  exact key (unescapeList s) h

/-- Counterexample to C2 as stated: a doubly escaped ampersand decodes one
level per pass, so normalizing twice differs from normalizing once. -/
theorem c2_counterexample :
    normalizeText (normalizeText ['&', 'a', 'm', 'p', ';', 'a', 'm', 'p', ';']) ≠
      normalizeText ['&', 'a', 'm', 'p', ';', 'a', 'm', 'p', ';'] := by decide

/-- Witness for C2 at a concrete entity-free string with collapsible
whitespace. -/
theorem c2_normalize_idempotent_witness :
    normalizeText (normalizeText [' ', 'a', ' ', ' ', 'b', ' ']) =
      normalizeText [' ', 'a', ' ', ' ', 'b', ' '] :=
  c2_normalize_idempotent [' ', 'a', ' ', ' ', 'b', ' '] (by decide)

end MkbScrape
